import Mathlib

/-!
Shallow embedding of the Bachelor_project repository
(src/Implementations/Mixer.py and src/Implementations/Public.py).

Python floats are modelled as rationals (ℚ); the balance dictionaries of
`analyze_mixer_privacy` become functions `String → ℚ` updated pointwise;
the shared mutable set `unique_solutions` becomes an accumulator threaded
through the recursion; `frozenset(path)` becomes `List.toFinset`.
Participants are given by their (unique) names, as the spec's data model
and the balance dictionaries (keyed by name) prescribe.
-/

attribute [local semireducible] Rat.add Rat.sub Rat.inv Rat.mul

namespace Mixer

/-- The numeric tolerance `1e-9` used by the balance check in
`find_solutions_recursive` (Mixer.py line 170). -/
def tol : ℚ := 1 / 1000000000

/-- One hypothesized transfer as the search records it: the label
`"sender -> receiver"` paired with the amount (Mixer.py line 189). -/
abbrev Flow := String × ℚ

/-- A balance dictionary, name to balance. -/
abbrev Balances := String → ℚ

/-- The flow label `f"{sender.name} -> {receiver.name}"` (Mixer.py line 189). -/
def mkLabel (s r : String) : String := s ++ " -> " ++ r

/-- Pointwise dictionary update `d[n] = v`. -/
def updateBal (b : Balances) (n : String) (v : ℚ) : Balances :=
  fun m => if m = n then v else b m

/-- The two sequential updates `new_balances[sender.name] -= amount;
new_balances[receiver.name] += amount` (Mixer.py lines 184-186). -/
def applyFlow (b : Balances) (s r : String) (a : ℚ) : Balances :=
  let b1 := updateBal b s (b s - a)
  updateBal b1 r (b1 r + a)

/-- The base-case acceptance test
`all(abs(current_balances[name] - final_balances[name]) < 1e-9 for name in user_names)`
(Mixer.py line 170). -/
def balancesMatch (users : List String) (cur fB : Balances) : Bool :=
  users.all (fun n => decide (|cur n - fB n| < tol))

/-- `frozenset(path)`: the canonical order-invariant form of a path
(Mixer.py line 172). -/
def canonical (path : List Flow) : Finset Flow := path.toFinset

/-- `find_solutions_recursive` (Mixer.py lines 165-190).  The remaining
suffix of `ordered_amounts` replaces the index `tx_index` (the Python base
case `tx_index == num_tx` is the empty suffix), and the shared mutable set
`unique_solutions` is the threaded accumulator `acc`. -/
def find_solutions_recursive (users : List String) (fB : Balances) :
    List ℚ → Balances → List Flow → Finset (Finset Flow) → Finset (Finset Flow)
  | [], cur, path, acc =>
      if balancesMatch users cur fB then insert (canonical path) acc else acc
  | amount :: rest, cur, path, acc =>
      users.foldl (fun acc1 sender =>
        users.foldl (fun acc2 receiver =>
          if sender = receiver then acc2
          else find_solutions_recursive users fB rest
            (applyFlow cur sender receiver amount)
            (path ++ [(mkLabel sender receiver, amount)]) acc2) acc1) acc
  termination_by structural l => l

/-- `list(set(itertools.permutations(tx_amounts)))` (Mixer.py line 162):
`itertools.permutations` enumerates all `n!` positional permutations and
`set(...)` keeps the value-distinct ones; `List.permutations'` enumerates the
same `n!` positional permutations and `dedup` keeps the value-distinct ones. -/
def amount_permutations (txAmounts : List ℚ) : List (List ℚ) :=
  txAmounts.permutations'.dedup

/-- The solution-set computation of `analyze_mixer_privacy`
(Mixer.py lines 146-194): run the solver on every unique permutation of the
amounts, accumulating into the (initially empty) set of unique solutions. -/
def analyze_mixer_privacy (users : List String) (iB fB : Balances)
    (txAmounts : List ℚ) : Finset (Finset Flow) :=
  (amount_permutations txAmounts).foldl
    (fun acc p => find_solutions_recursive users fB p iB [] acc) ∅

/-- One step of a stable ascending sort keyed on the amount: place `x` after
every already-placed element whose amount is at most `x`'s. -/
def insertByAmount (x : Flow) : List Flow → List Flow
  | [] => [x]
  | y :: ys => if y.2 ≤ x.2 then y :: insertByAmount x ys else x :: y :: ys

/-- The display ordering of one solution,
`sorted(list(solution_frozenset), key=lambda x: x[1])` (Mixer.py line 207):
Python's `sorted` is a stable ascending sort by the key — here the amount
`x[1]` alone — and every stable sort by one key computes the same list, here
realised as a stable insertion sort of the set's enumeration. -/
def display_sort (l : List Flow) : List Flow :=
  l.foldl (fun acc x => insertByAmount x acc) []

/-!
### A direct form of the search, for reasoning

`subtree_solutions` computes the set of canonical solutions the call
`find_solutions_recursive` discovers below one node, without the threaded
accumulator; `find_eq_union` proves the two agree.  `bigU` is the finite
union of an indexed family along a list.
-/

/-- Finite union of `g` along a list. -/
def bigU {α γ : Type} [DecidableEq γ] (g : α → Finset γ) : List α → Finset γ
  | [] => ∅
  | x :: xs => g x ∪ bigU g xs

/-- The set of canonical solutions found in the subtree rooted at a search
node with remaining amounts `amts`, running balances `cur` and path so far
`path`. -/
def subtree_solutions (users : List String) (fB : Balances) :
    List ℚ → Balances → List Flow → Finset (Finset Flow)
  | [], cur, path =>
      if balancesMatch users cur fB then {canonical path} else ∅
  | amount :: rest, cur, path =>
      bigU (fun sender =>
        bigU (fun receiver =>
          if sender = receiver then ∅
          else subtree_solutions users fB rest
            (applyFlow cur sender receiver amount)
            (path ++ [(mkLabel sender receiver, amount)])) users) users
  termination_by structural l => l

/-! ### Basic lemmas about the helpers -/

theorem mem_bigU {α γ : Type} [DecidableEq γ] (g : α → Finset γ) (l : List α) (c : γ) :
    c ∈ bigU g l ↔ ∃ x ∈ l, c ∈ g x := by
  induction l with
  | nil => simp [bigU]
  | cons x xs ih => simp [bigU, ih]

theorem bigU_eq_empty {α γ : Type} [DecidableEq γ] (g : α → Finset γ) (l : List α)
    (h : ∀ x ∈ l, g x = ∅) : bigU g l = ∅ := by
  induction l with
  | nil => rfl
  | cons x xs ih =>
      simp only [bigU, h x (by simp), Finset.empty_union]
      exact ih fun y hy => h y (by simp [hy])

theorem bigU_perm {α γ : Type} [DecidableEq γ] (g : α → Finset γ) {l1 l2 : List α}
    (h : l1.Perm l2) : bigU g l1 = bigU g l2 := by
  induction h with
  | nil => rfl
  | cons x _ ih => simp only [bigU, ih]
  | swap x y l => simp only [bigU, Finset.union_left_comm]
  | trans _ _ ih1 ih2 => rw [ih1, ih2]

theorem bigU_card_le {α γ : Type} [DecidableEq γ] (g : α → Finset γ) (l : List α) :
    (bigU g l).card ≤ (l.map fun x => (g x).card).sum := by
  induction l with
  | nil => simp [bigU]
  | cons x xs ih =>
      simp only [bigU, List.map_cons, List.sum_cons]
      exact le_trans (Finset.card_union_le _ _) (Nat.add_le_add_left ih _)

theorem foldl_fix {α β : Type} (f : β → α → β) (l : List α)
    (h : ∀ b x, x ∈ l → f b x = b) (b : β) : l.foldl f b = b := by
  induction l generalizing b with
  | nil => rfl
  | cons x xs ih =>
      rw [List.foldl_cons, h b x (by simp)]
      exact ih (fun b2 y hy => h b2 y (by simp [hy])) b

theorem foldl_eq_union {α γ : Type} [DecidableEq γ] (f : Finset γ → α → Finset γ)
    (g : α → Finset γ) (l : List α)
    (h : ∀ b x, x ∈ l → f b x = b ∪ g x) (b : Finset γ) :
    l.foldl f b = b ∪ bigU g l := by
  induction l generalizing b with
  | nil => simp [bigU]
  | cons x xs ih =>
      rw [List.foldl_cons, h b x (by simp),
        ih (fun b2 y hy => h b2 y (by simp [hy])) (b ∪ g x)]
      simp [bigU, Finset.union_assoc]

theorem balancesMatch_iff (users : List String) (cur fB : Balances) :
    balancesMatch users cur fB = true ↔ ∀ n ∈ users, |cur n - fB n| < tol := by
  simp [balancesMatch, List.all_eq_true]

/-! ### The accumulator-threaded search agrees with its direct form -/

theorem find_eq_union (users : List String) (fB : Balances) (amts : List ℚ)
    (cur : Balances) (path : List Flow) (acc : Finset (Finset Flow)) :
    find_solutions_recursive users fB amts cur path acc =
      acc ∪ subtree_solutions users fB amts cur path := by
  induction amts generalizing cur path acc with
  | nil =>
      simp only [find_solutions_recursive, subtree_solutions]
      by_cases h : balancesMatch users cur fB
      · simp [h, Finset.insert_eq, Finset.union_comm]
      · simp [h]
  | cons a rest ih =>
      have houter : ∀ (b : Finset (Finset Flow)) (s : String), s ∈ users →
          users.foldl (fun acc2 receiver =>
            if s = receiver then acc2
            else find_solutions_recursive users fB rest
              (applyFlow cur s receiver a)
              (path ++ [(mkLabel s receiver, a)]) acc2) b =
          b ∪ bigU (fun r =>
            if s = r then ∅
            else subtree_solutions users fB rest (applyFlow cur s r a)
              (path ++ [(mkLabel s r, a)])) users := by
        intro b s _
        refine foldl_eq_union _ _ users (fun b2 r _ => ?_) b
        by_cases hsr : s = r
        · simp [hsr]
        · simp [hsr, ih]
      simp only [find_solutions_recursive, subtree_solutions]
      exact foldl_eq_union _ _ users (fun b s hs => houter b s hs) acc

theorem analyze_eq_bigU (users : List String) (iB fB : Balances) (txs : List ℚ) :
    analyze_mixer_privacy users iB fB txs =
      bigU (fun p => subtree_solutions users fB p iB []) (amount_permutations txs) := by
  have h := foldl_eq_union (fun acc p => find_solutions_recursive users fB p iB [] acc)
    (fun p => subtree_solutions users fB p iB []) (amount_permutations txs)
    (fun b p _ => find_eq_union users fB p iB [] b) ∅
  simpa [analyze_mixer_privacy] using h

/-! ### Conservation of the total balance along the search -/

/-- Total balance of the participants, `sum(balances[name] for name in users)`. -/
def sumBal (users : List String) (b : Balances) : ℚ := (users.map b).sum

theorem applyFlow_apply (cur : Balances) (s r : String) (a : ℚ) (hsr : s ≠ r)
    (n : String) :
    applyFlow cur s r a n =
      cur n + (if n = r then a else 0) - (if n = s then a else 0) := by
  simp only [applyFlow, updateBal]
  by_cases hnr : n = r
  · by_cases hns : n = s
    · exact absurd (hns.symm.trans hnr) hsr
    · have hrs : ¬ r = s := fun e => hsr e.symm
      simp only [hnr]
      simp [hrs]
  · by_cases hns : n = s
    · simp only [hns]
      simp [hsr]
    · simp [hnr, hns]

theorem sum_map_add {α : Type} (l : List α) (f g : α → ℚ) :
    (l.map fun x => f x + g x).sum = (l.map f).sum + (l.map g).sum := by
  induction l with
  | nil => simp
  | cons x xs ih =>
      simp only [List.map_cons, List.sum_cons, ih]
      ring

theorem sum_map_sub {α : Type} (l : List α) (f g : α → ℚ) :
    (l.map fun x => f x - g x).sum = (l.map f).sum - (l.map g).sum := by
  induction l with
  | nil => simp
  | cons x xs ih =>
      simp only [List.map_cons, List.sum_cons, ih]
      ring

theorem sum_map_indicator_zero (l : List String) (t : String) (a : ℚ) (ht : t ∉ l) :
    (l.map fun n => if n = t then a else 0).sum = 0 := by
  induction l with
  | nil => rfl
  | cons x xs ih =>
      have hxt : x ≠ t := fun e => ht (e ▸ List.mem_cons_self x xs)
      simp [hxt, ih fun h => ht (List.mem_cons_of_mem _ h)]

theorem sum_map_indicator (l : List String) (t : String) (a : ℚ) (hnd : l.Nodup)
    (ht : t ∈ l) :
    (l.map fun n => if n = t then a else 0).sum = a := by
  induction l with
  | nil => cases ht
  | cons x xs ih =>
      rcases List.nodup_cons.mp hnd with ⟨hx, hxs⟩
      rcases List.mem_cons.mp ht with h | h
      · subst h
        simp [sum_map_indicator_zero xs t a hx]
      · have hxt : x ≠ t := fun e => hx (e ▸ h)
        simp [hxt, ih hxs h]

theorem sumBal_applyFlow (users : List String) (hnd : users.Nodup) (cur : Balances)
    (s r : String) (a : ℚ) (hs : s ∈ users) (hr : r ∈ users) (hsr : s ≠ r) :
    sumBal users (applyFlow cur s r a) = sumBal users cur := by
  have hmap : users.map (applyFlow cur s r a) =
      users.map fun n =>
        cur n + ((if n = r then a else 0) - (if n = s then a else 0)) :=
    List.map_congr_left fun n _ => by
      rw [applyFlow_apply cur s r a hsr n]; ring
  rw [sumBal, hmap, sum_map_add users cur
    (fun n => (if n = r then a else 0) - (if n = s then a else 0)),
    sum_map_sub users (fun n => if n = r then a else 0) (fun n => if n = s then a else 0),
    sum_map_indicator users r a hnd hr, sum_map_indicator users s a hnd hs]
  simp [sumBal]

theorem abs_sumBal_sub_le (users : List String) (cur fB : Balances)
    (h : ∀ n ∈ users, |cur n - fB n| < tol) :
    |sumBal users cur - sumBal users fB| ≤ (users.length : ℚ) * tol := by
  induction users with
  | nil => simp [sumBal]
  | cons x xs ih =>
      have hx := h x (by simp)
      have hxs := ih fun n hn => h n (by simp [hn])
      simp only [sumBal, List.map_cons, List.sum_cons, List.length_cons] at *
      have h1 : |cur x + (xs.map cur).sum - (fB x + (xs.map fB).sum)|
          ≤ |cur x - fB x| + |(xs.map cur).sum - (xs.map fB).sum| := by
        have := abs_add (cur x - fB x) ((xs.map cur).sum - (xs.map fB).sum)
        calc |cur x + (xs.map cur).sum - (fB x + (xs.map fB).sum)|
            = |(cur x - fB x) + ((xs.map cur).sum - (xs.map fB).sum)| := by ring_nf
          _ ≤ _ := this
      calc |cur x + (xs.map cur).sum - (fB x + (xs.map fB).sum)|
          ≤ |cur x - fB x| + |(xs.map cur).sum - (xs.map fB).sum| := h1
        _ ≤ tol + (xs.length : ℚ) * tol := add_le_add (le_of_lt hx) hxs
        _ = ((xs.length : ℚ) + 1) * tol := by ring
        _ = (((xs.length + 1 : ℕ)) : ℚ) * tol := by push_cast; ring

theorem subtree_empty_of_sum (users : List String) (fB : Balances) (hnd : users.Nodup)
    (amts : List ℚ) (cur : Balances) (path : List Flow)
    (h : (users.length : ℚ) * tol < |sumBal users cur - sumBal users fB|) :
    subtree_solutions users fB amts cur path = ∅ := by
  induction amts generalizing cur path with
  | nil =>
      simp only [subtree_solutions]
      by_cases hm : balancesMatch users cur fB
      · exact absurd h (not_lt.mpr
          (abs_sumBal_sub_le users cur fB ((balancesMatch_iff users cur fB).mp hm)))
      · simp [hm]
  | cons a rest ih =>
      simp only [subtree_solutions]
      refine bigU_eq_empty _ _ fun s hs => ?_
      refine bigU_eq_empty _ _ fun r hr => ?_
      by_cases hsr : s = r
      · simp [hsr]
      · simp only [if_neg hsr]
        refine ih _ _ ?_
        rwa [sumBal_applyFlow users hnd cur s r a hs hr hsr]

/-! ### Size of the search tree -/

/-- Number of (sender, receiver) branches explored at one slot: for every
sender in `users`, the receivers in `users` other than the sender (the
`continue` branch of the double loop contributes nothing). -/
def branches (users : List String) : ℕ :=
  (users.map fun s => (users.filter fun r => decide (¬ s = r)).length).sum

/-- Number of leaves of the per-ordering search tree with `amts` remaining. -/
def leaf_count (users : List String) : List ℚ → ℕ
  | [] => 1
  | _ :: rest => branches users * leaf_count users rest

theorem leaf_count_eq_pow (users : List String) (amts : List ℚ) :
    leaf_count users amts = branches users ^ amts.length := by
  induction amts with
  | nil => rfl
  | cons a rest ih =>
      simp only [leaf_count, List.length_cons, ih, pow_succ]
      ring

theorem filter_ne_of_not_mem (l : List String) (s : String) (hs : s ∉ l) :
    l.filter (fun r => decide (¬ s = r)) = l := by
  refine List.filter_eq_self.mpr fun a ha => ?_
  simp only [decide_eq_true_eq]
  exact fun e => hs (by rw [e]; exact ha)

theorem filter_ne_length (l : List String) (hnd : l.Nodup) (s : String) (hs : s ∈ l) :
    (l.filter fun r => decide (¬ s = r)).length = l.length - 1 := by
  induction l with
  | nil => cases hs
  | cons x xs ih =>
      rcases List.nodup_cons.mp hnd with ⟨hx, hxs⟩
      rcases List.mem_cons.mp hs with h | h
      · subst h
        rw [List.filter_cons, if_neg (by simp), filter_ne_of_not_mem xs s hx]
        simp
      · have hsx : ¬ s = x := fun e => hx (by rw [← e]; exact h)
        have hpos : 1 ≤ xs.length := List.length_pos.mpr (List.ne_nil_of_mem h)
        rw [List.filter_cons, if_pos (by simp [hsx]), List.length_cons, ih hxs h]
        simp only [List.length_cons]
        omega

theorem sum_map_const_nat {α : Type} (l : List α) (c : ℕ) (f : α → ℕ)
    (h : ∀ x ∈ l, f x = c) : (l.map f).sum = l.length * c := by
  induction l with
  | nil => simp
  | cons x xs ih =>
      simp only [List.map_cons, List.sum_cons, List.length_cons, h x (by simp),
        ih fun y hy => h y (by simp [hy])]
      ring

theorem branches_eq (users : List String) (hnd : users.Nodup) :
    branches users = users.length * (users.length - 1) := by
  unfold branches
  exact sum_map_const_nat users (users.length - 1) _
    fun s hs => filter_ne_length users hnd s hs

theorem sum_map_mul_right_nat {α : Type} (l : List α) (f : α → ℕ) (c : ℕ) :
    (l.map fun x => f x * c).sum = (l.map f).sum * c := by
  induction l with
  | nil => simp
  | cons x xs ih =>
      simp only [List.map_cons, List.sum_cons, ih]
      ring

theorem sum_map_ite_zero (l : List String) (s : String) (c : ℕ) :
    (l.map fun r => if s = r then 0 else c).sum =
      (l.filter fun r => decide (¬ s = r)).length * c := by
  induction l with
  | nil => simp
  | cons x xs ih =>
      by_cases h : s = x
      · rw [List.map_cons, List.sum_cons, if_pos h, List.filter_cons,
          if_neg (by simp [h]), ih]
        simp
      · rw [List.map_cons, List.sum_cons, if_neg h, List.filter_cons,
          if_pos (by simp [h]), List.length_cons, ih]
        ring

theorem subtree_card_le (users : List String) (fB : Balances) (amts : List ℚ)
    (cur : Balances) (path : List Flow) :
    (subtree_solutions users fB amts cur path).card ≤ leaf_count users amts := by
  induction amts generalizing cur path with
  | nil =>
      simp only [subtree_solutions, leaf_count]
      by_cases h : balancesMatch users cur fB <;> simp [h]
  | cons a rest ih =>
      simp only [subtree_solutions, leaf_count]
      refine le_trans (bigU_card_le _ _) ?_
      have hsum : ∀ s ∈ users,
          (bigU (fun r =>
            if s = r then ∅
            else subtree_solutions users fB rest (applyFlow cur s r a)
              (path ++ [(mkLabel s r, a)])) users).card ≤
          (users.filter fun r => decide (¬ s = r)).length * leaf_count users rest := by
        intro s _
        refine le_trans (bigU_card_le _ _) ?_
        rw [← sum_map_ite_zero users s (leaf_count users rest)]
        refine List.sum_le_sum fun r _ => ?_
        by_cases hsr : s = r
        · simp [hsr]
        · simp only [if_neg hsr]
          exact ih _ _
      calc (users.map fun s => (bigU (fun r =>
            if s = r then ∅
            else subtree_solutions users fB rest (applyFlow cur s r a)
              (path ++ [(mkLabel s r, a)])) users).card).sum
          ≤ (users.map fun s =>
              (users.filter fun r => decide (¬ s = r)).length *
                leaf_count users rest).sum := List.sum_le_sum hsum
        _ = branches users * leaf_count users rest := by
            rw [sum_map_mul_right_nat]
            rfl

theorem analyze_card_le (users : List String) (iB fB : Balances) (txs : List ℚ) :
    (analyze_mixer_privacy users iB fB txs).card ≤
      Nat.factorial txs.length * branches users ^ txs.length := by
  rw [analyze_eq_bigU]
  refine le_trans (bigU_card_le _ _) ?_
  have hlen : ∀ p ∈ amount_permutations txs, p.length = txs.length := fun p hp =>
    (List.mem_permutations'.mp (List.mem_dedup.mp hp)).length_eq
  have hbound : ∀ p ∈ amount_permutations txs,
      (subtree_solutions users fB p iB []).card ≤ branches users ^ txs.length := by
    intro p hp
    have h := subtree_card_le users fB p iB []
    rwa [leaf_count_eq_pow, hlen p hp] at h
  calc ((amount_permutations txs).map fun p =>
        (subtree_solutions users fB p iB []).card).sum
      ≤ ((amount_permutations txs).map fun _ =>
          branches users ^ txs.length).sum := List.sum_le_sum hbound
    _ = (amount_permutations txs).length * branches users ^ txs.length :=
        sum_map_const_nat _ _ _ fun _ _ => rfl
    _ ≤ Nat.factorial txs.length * branches users ^ txs.length := by
        refine Nat.mul_le_mul_right _ ?_
        calc (amount_permutations txs).length ≤ txs.permutations'.length :=
            (List.dedup_sublist _).length_le
          _ = txs.permutations.length :=
            (List.permutations_perm_permutations' txs).length_eq.symm
          _ = Nat.factorial txs.length := List.length_permutations txs

/-! ### Shape of the flows the search emits -/

theorem subtree_flows (users : List String) (fB : Balances) (amts : List ℚ)
    (cur : Balances) (path : List Flow)
    (hpath : ∀ f ∈ path, ∃ s ∈ users, ∃ r ∈ users, s ≠ r ∧ f.1 = mkLabel s r) :
    ∀ sol ∈ subtree_solutions users fB amts cur path, ∀ f ∈ sol,
      ∃ s ∈ users, ∃ r ∈ users, s ≠ r ∧ f.1 = mkLabel s r := by
  induction amts generalizing cur path with
  | nil =>
      intro sol hsol f hf
      simp only [subtree_solutions] at hsol
      by_cases h : balancesMatch users cur fB
      · rw [if_pos h, Finset.mem_singleton] at hsol
        subst hsol
        exact hpath f (List.mem_toFinset.mp hf)
      · rw [if_neg h] at hsol
        cases hsol
  | cons a rest ih =>
      intro sol hsol f hf
      simp only [subtree_solutions] at hsol
      rw [mem_bigU] at hsol
      obtain ⟨s, hs, hsol⟩ := hsol
      rw [mem_bigU] at hsol
      obtain ⟨r, hr, hsol⟩ := hsol
      by_cases hsr : s = r
      · rw [if_pos hsr] at hsol
        cases hsol
      · rw [if_neg hsr] at hsol
        refine ih _ _ ?_ sol hsol f hf
        intro g hg
        rcases List.mem_append.mp hg with h | h
        · exact hpath g h
        · have hg2 : g = (mkLabel s r, a) := by simpa using h
          exact ⟨s, hs, r, hr, hsr, by rw [hg2]⟩

/-! ### The display sort is a stable ascending sort by amount -/

theorem insertByAmount_perm (x : Flow) (l : List Flow) :
    (insertByAmount x l).Perm (x :: l) := by
  induction l with
  | nil => exact List.Perm.refl [x]
  | cons y ys ih =>
      by_cases h : y.2 ≤ x.2
      · simp only [insertByAmount, if_pos h]
        exact (ih.cons y).trans (List.Perm.swap x y ys)
      · simp only [insertByAmount, if_neg h]
        exact List.Perm.refl _

theorem insertByAmount_sorted (x : Flow) (l : List Flow)
    (h : l.Pairwise fun u v => u.2 ≤ v.2) :
    (insertByAmount x l).Pairwise fun u v => u.2 ≤ v.2 := by
  induction l with
  | nil => simp [insertByAmount]
  | cons y ys ih =>
      rcases List.pairwise_cons.mp h with ⟨hy, hys⟩
      by_cases hle : y.2 ≤ x.2
      · simp only [insertByAmount, if_pos hle]
        refine List.pairwise_cons.mpr ⟨fun z hz => ?_, ih hys⟩
        rcases List.mem_cons.mp ((insertByAmount_perm x ys).mem_iff.mp hz) with h2 | h2
        · rw [h2]; exact hle
        · exact hy z h2
      · simp only [insertByAmount, if_neg hle]
        have hxle : x.2 ≤ y.2 := le_of_not_le hle
        refine List.pairwise_cons.mpr ⟨fun z hz => ?_, h⟩
        rcases List.mem_cons.mp hz with h2 | h2
        · rw [h2]; exact hxle
        · exact le_trans hxle (hy z h2)

theorem display_sort_perm_aux (l acc : List Flow) :
    (l.foldl (fun a x => insertByAmount x a) acc).Perm (acc ++ l) := by
  induction l generalizing acc with
  | nil => simp
  | cons x xs ih =>
      rw [List.foldl_cons]
      refine (ih (insertByAmount x acc)).trans ?_
      refine (((insertByAmount_perm x acc).append_right xs).trans ?_)
      exact List.perm_middle.symm

theorem display_sort_sorted_aux (l acc : List Flow)
    (hacc : acc.Pairwise fun u v => u.2 ≤ v.2) :
    (l.foldl (fun a x => insertByAmount x a) acc).Pairwise fun u v => u.2 ≤ v.2 := by
  induction l generalizing acc with
  | nil => exact hacc
  | cons x xs ih => exact ih _ (insertByAmount_sorted x acc hacc)

/-! ### The claims -/

/-- C1, counterexample to the claim as stated: with two participants both
starting at 0 and both observed to finish at `3 / 4000000000`, the sums of
initial and final balances differ by `1.5e-9`, beyond the tolerance `1e-9`,
yet the solution set is not empty: each single participant is off by only
`0.75e-9`, inside the per-participant tolerance the code actually checks. -/
theorem conservation_imbalance_counterexample :
    tol <
      |sumBal ["A", "B"] (fun _ => 0) -
        sumBal ["A", "B"] (fun _ => 3 / 4000000000)| ∧
    analyze_mixer_privacy ["A", "B"] (fun _ => 0)
      (fun _ => 3 / 4000000000) [] ≠ ∅ :=
  ⟨by decide, by decide⟩

/-- C1, amended: if the sums of the initial and the final balances differ by
more than the number of participants times the tolerance (the match test is
per participant, so total discrepancies below `P · 1e-9` can still be
accepted), the analysis returns an empty solution set, because every branch
of the search preserves the total balance. -/
theorem solutionSet_empty_of_total_imbalance (users : List String)
    (iB fB : Balances) (txs : List ℚ) (hnd : users.Nodup)
    (h : (users.length : ℚ) * tol < |sumBal users iB - sumBal users fB|) :
    analyze_mixer_privacy users iB fB txs = ∅ := by
  rw [analyze_eq_bigU]
  exact bigU_eq_empty _ _ fun p _ => subtree_empty_of_sum users fB hnd p iB [] h

theorem solutionSet_empty_of_total_imbalance_witness :
    analyze_mixer_privacy ["A", "B"] (fun _ => 100) (fun _ => 200) [10] = ∅ :=
  solutionSet_empty_of_total_imbalance ["A", "B"] (fun _ => 100) (fun _ => 200)
    [10] (by decide) (by decide)

/-- C2: on the two-participant input A: 100→90, B: 100→110 with amount
multiset [10.0], the analysis returns exactly one canonical solution, the
single pair (A→B, 10.0). -/
theorem two_participant_exactness :
    analyze_mixer_privacy ["A", "B"]
      (fun _ => 100) (fun n => if n = "A" then 90 else 110) [10] =
      {({("A -> B", 10)} : Finset Flow)} := by decide

/-- C3: two accepted scenarios collapse to the same canonical solution
exactly when their (label, amount) pair sets are equal; in particular a
permutation of a scenario's slots has the same canonical form, so the
base-case insertion of the search treats permuted paths identically. -/
theorem canonical_perm_invariant (p1 p2 : List Flow) (h : p1.Perm p2) :
    canonical p1 = canonical p2 ∧
    (∀ q : List Flow, canonical p1 = canonical q ↔ p1.toFinset = q.toFinset) ∧
    ∀ (users : List String) (fB cur : Balances) (acc : Finset (Finset Flow)),
      find_solutions_recursive users fB [] cur p1 acc =
        find_solutions_recursive users fB [] cur p2 acc := by
  have hc : canonical p1 = canonical p2 := by
    unfold canonical
    ext a
    simp [List.mem_toFinset, h.mem_iff]
  exact ⟨hc, fun q => Iff.rfl, fun users fB cur acc => by
    simp only [find_solutions_recursive, canonical] at *
    rw [hc]⟩

theorem canonical_perm_invariant_witness :
    canonical [("A -> B", (10 : ℚ)), ("B -> C", 5)] =
      canonical [("B -> C", (5 : ℚ)), ("A -> B", 10)] :=
  (canonical_perm_invariant [("A -> B", (10 : ℚ)), ("B -> C", 5)]
    [("B -> C", (5 : ℚ)), ("A -> B", 10)] (by decide)).1

/-- C4: every flow of every canonical solution the analysis returns is
labelled `s -> r` with `s` and `r` distinct participants: the search skips
every sender-equals-receiver branch, so self-transfers never occur. -/
theorem no_self_transfer (users : List String) (iB fB : Balances)
    (txs : List ℚ) (sol : Finset Flow)
    (hsol : sol ∈ analyze_mixer_privacy users iB fB txs)
    (f : Flow) (hf : f ∈ sol) :
    ∃ s ∈ users, ∃ r ∈ users, s ≠ r ∧ f.1 = mkLabel s r := by
  rw [analyze_eq_bigU, mem_bigU] at hsol
  obtain ⟨p, _, hsol⟩ := hsol
  exact subtree_flows users fB p iB [] (by simp) sol hsol f hf

theorem no_self_transfer_witness :
    ∃ s ∈ ["A", "B"], ∃ r ∈ ["A", "B"], s ≠ r ∧
      (("A -> B", (10 : ℚ)) : Flow).1 = mkLabel s r :=
  no_self_transfer ["A", "B"] (fun _ => 100)
    (fun n => if n = "A" then 90 else 110) [10]
    {("A -> B", 10)} (by decide) ("A -> B", 10) (by decide)

/-- C5: at the base case (no amounts left to assign) the completed path is
accepted — its canonical form inserted into the solution set — exactly when
every participant's running balance is within `1e-9` of its target
simultaneously; if any one participant is off by at least the tolerance,
nothing is inserted. -/
theorem leaf_acceptance_iff (users : List String) (fB cur : Balances)
    (path : List Flow) (acc : Finset (Finset Flow)) :
    (canonical path ∈ find_solutions_recursive users fB [] cur path acc ↔
      (∀ n ∈ users, |cur n - fB n| < tol) ∨ canonical path ∈ acc) ∧
    ((∃ n ∈ users, tol ≤ |cur n - fB n|) →
      find_solutions_recursive users fB [] cur path acc = acc) := by
  constructor
  · by_cases h : balancesMatch users cur fB
    · simp only [find_solutions_recursive, if_pos h]
      refine iff_of_true (Finset.mem_insert_self _ _)
        (Or.inl ((balancesMatch_iff users cur fB).mp h))
    · have hnot : ¬ ∀ n ∈ users, |cur n - fB n| < tol :=
        fun hh => h ((balancesMatch_iff users cur fB).mpr hh)
      simp only [find_solutions_recursive, if_neg h]
      simp [hnot]
  · rintro ⟨n, hn, hge⟩
    have hm : ¬ balancesMatch users cur fB = true := fun hm =>
      absurd ((balancesMatch_iff users cur fB).mp hm n hn) (not_lt.mpr hge)
    simp only [find_solutions_recursive, if_neg hm]

/-- C6: the permutation enumerator yields exactly the distinct
value-sequences obtained by permuting the amount multiset — membership is
permutation-equivalence — with no sequence emitted twice, and the empty
multiset yields exactly the one empty ordering. -/
theorem permutation_enumerator_contract (txs : List ℚ) :
    (∀ l : List ℚ, l ∈ amount_permutations txs ↔ l.Perm txs) ∧
    (amount_permutations txs).Nodup ∧
    amount_permutations ([] : List ℚ) = [[]] := by
  refine ⟨fun l => ?_, List.nodup_dedup _, by decide⟩
  rw [amount_permutations, List.mem_dedup, List.mem_permutations']

/-- C7, counterexample to the claim as stated: on the input with two
participants both 100→100 and amounts [10.0, 10.0] the solution set contains
the canonical solution {(A→B, 10), (B→A, 10)}; enumerating that pair set as
[(B→A, 10), (A→B, 10)] and applying the display sort — which keys on the
amount alone — leaves the two equal-amount pairs in enumeration order, so the
displayed list is not ordered by flow label among equal amounts. -/
theorem display_sort_label_counterexample :
    ({("A -> B", (10 : ℚ)), ("B -> A", 10)} : Finset Flow) ∈
      analyze_mixer_privacy ["A", "B"] (fun _ => 100) (fun _ => 100) [10, 10] ∧
    [("B -> A", (10 : ℚ)), ("A -> B", 10)].Nodup ∧
    [("B -> A", (10 : ℚ)), ("A -> B", 10)].toFinset =
      ({("A -> B", (10 : ℚ)), ("B -> A", 10)} : Finset Flow) ∧
    ¬ (display_sort [("B -> A", (10 : ℚ)), ("A -> B", 10)]).Pairwise
        (fun x y => x.2 < y.2 ∨ (x.2 = y.2 ∧ x.1 ≤ y.1)) := by
  refine ⟨by decide, by decide, by decide, ?_⟩
  have hds : display_sort [("B -> A", (10 : ℚ)), ("A -> B", 10)] =
      [("B -> A", 10), ("A -> B", 10)] := by decide
  rw [hds]
  intro hpair
  rcases List.pairwise_cons.mp hpair with ⟨hrel, _⟩
  rcases hrel ("A -> B", 10) (by simp) with hlt | ⟨_, hle⟩
  · exact absurd hlt (by decide)
  · have hba : ("A -> B" : String) < "B -> A" := by
      rw [String.lt_iff_toList_lt]
      decide
    exact absurd hle (not_le.mpr hba)

/-- C7, amended: the displayed pair list of a solution is sorted ascending
by amount and is a permutation of the enumerated pair set; among equal
amounts the (stable) sort keeps the enumeration order of the set, which is
not ordered by flow label. -/
theorem display_sort_spec (l : List Flow) :
    (display_sort l).Pairwise (fun u v => u.2 ≤ v.2) ∧ (display_sort l).Perm l := by
  constructor
  · exact display_sort_sorted_aux l [] (by simp)
  · simpa using display_sort_perm_aux l []

/-- C8: the analysis always terminates — the recursion is structural on the
remaining slot count — and the search space is bounded: the per-ordering
search tree has exactly `(P·(P−1))^N` leaves and at most `N!` orderings are
explored, so the returned solution set has at most `N!·(P·(P−1))^N`
elements, on every input (unequal totals, negative amounts and fewer than
two participants included). -/
theorem search_space_bound (users : List String) (iB fB : Balances)
    (txs : List ℚ) (hnd : users.Nodup) :
    (analyze_mixer_privacy users iB fB txs).card ≤
      Nat.factorial txs.length *
        (users.length * (users.length - 1)) ^ txs.length ∧
    leaf_count users txs = (users.length * (users.length - 1)) ^ txs.length := by
  constructor
  · have h := analyze_card_le users iB fB txs
    rwa [branches_eq users hnd] at h
  · rw [leaf_count_eq_pow, branches_eq users hnd]

theorem search_space_bound_witness :
    (analyze_mixer_privacy ["A", "B"] (fun _ => 100)
        (fun n => if n = "A" then 90 else 110) [10]).card ≤
      Nat.factorial [(10 : ℚ)].length *
        (["A", "B"].length * (["A", "B"].length - 1)) ^ [(10 : ℚ)].length ∧
    leaf_count ["A", "B"] [10] =
      (["A", "B"].length * (["A", "B"].length - 1)) ^ [(10 : ℚ)].length :=
  search_space_bound ["A", "B"] (fun _ => 100)
    (fun n => if n = "A" then 90 else 110) [10] (by decide)

/-- C9: the content of the solution set is a deterministic function of the
inputs and is independent of the order in which the orderings are traversed:
folding the solver over any permutation of the enumerated orderings returns
the same set, because each call only unions in the solutions of its subtree.
-/
theorem solutionSet_traversal_invariant (users : List String)
    (iB fB : Balances) (txs : List ℚ) (L : List (List ℚ))
    (h : L.Perm (amount_permutations txs)) :
    L.foldl (fun acc p => find_solutions_recursive users fB p iB [] acc) ∅ =
      analyze_mixer_privacy users iB fB txs := by
  rw [analyze_eq_bigU,
    foldl_eq_union _ (fun p => subtree_solutions users fB p iB []) L
      (fun b p _ => find_eq_union users fB p iB [] b) ∅,
    Finset.empty_union]
  exact bigU_perm _ h

theorem solutionSet_traversal_invariant_witness :
    [[(5 : ℚ), 10], [10, 5]].foldl
      (fun acc p => find_solutions_recursive ["A", "B"] (fun _ => 100) p
        (fun _ => 100) [] acc) ∅ =
      analyze_mixer_privacy ["A", "B"] (fun _ => 100) (fun _ => 100) [10, 5] :=
  solutionSet_traversal_invariant ["A", "B"] (fun _ => 100) (fun _ => 100)
    [10, 5] [[(5 : ℚ), 10], [10, 5]] (by decide)

end Mixer

namespace Public

/-- The balance effects of `Transaction.__init__` in Public.py (lines 41-58),
acting on the two wallet balances: the insufficient-funds guard is checked
before any mutation, so a raise (`Except.error`) leaves both balances as they
were; otherwise the sender is debited and the receiver credited. The first
component reports the raised message, if any; the remaining two are the
sender's and receiver's balances after the constructor call. -/
def Transaction_init (senderBalance receiverBalance amount : ℚ) :
    Option String × ℚ × ℚ :=
  if senderBalance < amount then
    (some "Insufficient funds for this transaction.",
      senderBalance, receiverBalance)
  else
    (none, senderBalance - amount, receiverBalance + amount)

/-- C10: the transaction constructor raises exactly when the sender's
balance is strictly below the amount; on a raise both balances are left
unchanged (the guard runs before any mutation), and on success the sender is
debited and the receiver credited by exactly the amount, so the total is
conserved. -/
theorem transaction_init_spec (s r a : ℚ) :
    ((Transaction_init s r a).1 ≠ none ↔ s < a) ∧
    (∀ _ : s < a, Transaction_init s r a =
      (some "Insufficient funds for this transaction.", s, r)) ∧
    (∀ _ : ¬ s < a, Transaction_init s r a = (none, s - a, r + a) ∧
      (s - a) + (r + a) = s + r) := by
  by_cases h : s < a
  · exact ⟨by simp [Transaction_init, h],
      fun _ => by simp [Transaction_init, h],
      fun hc => absurd h hc⟩
  · exact ⟨by simp [Transaction_init, h],
      fun hc => absurd hc h,
      fun _ => ⟨by simp [Transaction_init, h], by ring⟩⟩

end Public
